import Mathlib

/-!
Verification development for the Clebsch-Gordan feature-combination core
(`code_pytorch.py`).  The Python code is shallowly embedded: tensors become
shape records with total data functions, Python lists become Lean lists, and
floating-point scalars become elements of an abstract linear ordered field
`R`, with the two irrational constants of the source (`np.sqrt(2)` and the
compression tolerance `1e-15`) threaded through as explicit parameters
`sqrt2` and `eps`.  All arithmetic is exact.
-/

section Coefficients

variable {R : Type} [LinearOrderedField R]

/-- One coefficient triple `[m1, m2, multiplier]` as built by the Python code:
two basis indices and a scalar weight. -/
abbrev Triple (R : Type) := ℤ × ℤ × R

/-- `multiply(first, second, multiplier)` from the source: combines two
`(index, weight)` conversion pairs and a Clebsch-Gordan coefficient into one
triple `[first[0], second[0], first[1]*second[1]*multiplier]`. -/
def multiply (first second : ℤ × R) (multiplier : R) : Triple R :=
  (first.1, second.1, first.2 * second.2 * multiplier)

/-- `multiply_sequence(sequence, multiplier)` from the source: rescales the
multiplier of every triple in a list. -/
def multiply_sequence (sequence : List (Triple R)) (multiplier : R) : List (Triple R) :=
  sequence.map (fun el => (el.1, el.2.1, el.2.2 * multiplier))

/-- `get_conversion(l, m)` from the source: the real/imaginary decomposition
of the complex harmonic `(l, m)` over the real basis, as two
`(index, weight)` pairs `(X_re, X_im)`.  The source's `1.0/np.sqrt(2)` is
modelled by `1 / sqrt2`. -/
def get_conversion (sqrt2 : R) (l : ℕ) (m : ℤ) : (ℤ × R) × (ℤ × R) :=
  if m < 0 then
    ((|m| + l, 1 / sqrt2), (m + l, -(1 / sqrt2)))
  else if m = 0 then
    (((l : ℤ), 1), ((l : ℤ), 0))
  else
    if m % 2 = 0 then
      ((m + l, 1 / sqrt2), (-m + l, 1 / sqrt2))
    else
      ((m + l, -(1 / sqrt2)), (-m + l, -(1 / sqrt2)))

/-- The body of `compress(sequence, epsilon)`: walks the remaining input,
carrying the accumulated output `acc`.  A pair already present in `acc` is
skipped; otherwise the multipliers of all occurrences of the pair from the
current position onward are summed and the pair is appended when the sum
exceeds `epsilon` in absolute value — exactly the source's loop, where the
inner sum `for j in range(i, len(sequence))` is the current triple's
multiplier plus the matching multipliers of the yet-unprocessed suffix. -/
def compressAux (epsilon : R) : List (Triple R) → List (Triple R) → List (Triple R)
  | [], acc => acc
  | t :: rest, acc =>
    if acc.any (fun u => u.1 = t.1 && u.2.1 = t.2.1) then
      compressAux epsilon rest acc
    else
      let s := t.2.2 +
        ((rest.filter (fun u => u.1 = t.1 && u.2.1 = t.2.1)).map (fun u => u.2.2)).sum
      if |s| > epsilon then
        compressAux epsilon rest (acc ++ [(t.1, t.2.1, s)])
      else
        compressAux epsilon rest acc

/-- `compress(sequence, epsilon)` from the source. -/
def compress (sequence : List (Triple R)) (epsilon : R) : List (Triple R) :=
  compressAux epsilon sequence []

/-- The inner loop of `precompute_transformation` for one `mu`: the list of
`m2` values `range(max(-l2, mu-l1), min(l2, mu+l1)+1)` and, for each, the
two real-list and two imaginary-list contributions, giving the pair
`(real_now, imag_now)` before the parity swap. -/
def raw_lists (sqrt2 : R) (clebsch : ℤ → ℤ → R) (l1 l2 : ℕ) (mu : ℕ) :
    List (Triple R) × List (Triple R) :=
  let lo : ℤ := max (-(l2 : ℤ)) ((mu : ℤ) - l1)
  let hi : ℤ := min (l2 : ℤ) ((mu : ℤ) + l1)
  let ms : List ℤ := (List.range (hi + 1 - lo).toNat).map (fun i => lo + i)
  let real_now := ms.flatMap (fun m2 =>
    let m1 := (mu : ℤ) - m2
    let c1 := get_conversion sqrt2 l1 m1
    let c2 := get_conversion sqrt2 l2 m2
    [multiply c1.1 c2.1 (clebsch (m1 + l1) (m2 + l2)),
     multiply c1.2 c2.2 (-(clebsch (m1 + l1) (m2 + l2)))])
  let imag_now := ms.flatMap (fun m2 =>
    let m1 := (mu : ℤ) - m2
    let c1 := get_conversion sqrt2 l1 m1
    let c2 := get_conversion sqrt2 l2 m2
    [multiply c1.1 c2.2 (clebsch (m1 + l1) (m2 + l2)),
     multiply c1.2 c2.1 (clebsch (m1 + l1) (m2 + l2))])
  (real_now, imag_now)

/-- The `(real_now, imag_now)` pair after the parity correction of the
source: when `(l1 + l2 - lambd) % 2 == 1` (Python semantics, i.e. integer
`emod`), the code executes
`imag_now, real_now = real_now, multiply_sequence(imag_now, -1)`. -/
def derived_lists (sqrt2 : R) (clebsch : ℤ → ℤ → R) (l1 l2 lambd : ℕ) (mu : ℕ) :
    List (Triple R) × List (Triple R) :=
  let p := raw_lists sqrt2 clebsch l1 l2 mu
  if ((l1 : ℤ) + l2 - lambd) % 2 = 1 then
    (multiply_sequence p.2 (-1), p.1)
  else
    p

/-- One iteration of the `for mu in range(0, lambd + 1)` loop of
`precompute_transformation`: writes the scaled real list into slot
`mu + lambd` and the scaled imaginary list into slot `lambd - mu`
(`-mu + lambd` in the source), or the unscaled real list into slot `lambd`
when `mu = 0`. -/
def transformationStep (sqrt2 : R) (clebsch : ℤ → ℤ → R) (l1 l2 lambd : ℕ)
    (res : List (List (Triple R))) (mu : ℕ) : List (List (Triple R)) :=
  let p := derived_lists sqrt2 clebsch l1 l2 lambd mu
  if 0 < mu then
    if mu % 2 = 0 then
      (res.set (mu + lambd) (multiply_sequence p.1 sqrt2)).set (lambd - mu)
        (multiply_sequence p.2 sqrt2)
    else
      (res.set (mu + lambd) (multiply_sequence p.1 (-sqrt2))).set (lambd - mu)
        (multiply_sequence p.2 (-sqrt2))
  else
    res.set lambd p.1

/-- `precompute_transformation(clebsch, l1, l2, lambd)` from the source:
`2*lambd+1` slots, filled by the `mu` loop and finally compressed slot by
slot (the source calls `compress` with its default `epsilon`, modelled by
the parameter `eps`). -/
def precompute_transformation (sqrt2 eps : R) (clebsch : ℤ → ℤ → R)
    (l1 l2 lambd : ℕ) : List (List (Triple R)) :=
  let init : List (List (Triple R)) := List.replicate (2 * lambd + 1) []
  let filled := (List.range (lambd + 1)).foldl
    (transformationStep sqrt2 clebsch l1 l2 lambd) init
  filled.map (fun l => compress l eps)

end Coefficients

section Tensors

variable {R : Type} [LinearOrderedField R]

/-- A 3-dimensional tensor `[batch, channel, m]` as used throughout the
source: recorded sizes plus a total data function (indices are total; the
claims only inspect in-range entries).  The `m` axis is indexed by `ℤ`
because the coefficient triples carry integer basis indices. -/
structure T3 (R : Type) where
  nb : ℕ
  nc : ℕ
  nm : ℕ
  data : ℕ → ℕ → ℤ → R

/-- The flattening loop of `ClebschCombiningSingleUnrolled.__init__`:
`for mu in range(0, 2*lambd+1): for el in transformation[mu]: ...` builds
the parallel lists `m1_aligned`, `m2_aligned`, `multipliers`, `mu`, here as
one list of quadruples `(m1, m2, multiplier, mu)`.  The first argument is
the `mu` value of the head slot. -/
def flattenTransAux (R : Type) : ℕ → List (List (Triple R)) → List (ℤ × ℤ × R × ℕ)
  | _, [] => []
  | mu, slot :: rest =>
    slot.map (fun t => (t.1, t.2.1, t.2.2, mu)) ++ flattenTransAux R (mu + 1) rest

/-- The flattened transformation, starting from slot `mu = 0`. -/
def flattenTrans (trans : List (List (Triple R))) : List (ℤ × ℤ × R × ℕ) :=
  flattenTransAux R 0 trans

/-- The CUDA branch of `ClebschCombiningSingleUnrolled.forward`: gather the
`m1`/`m2` columns of `X1`/`X2` for every flattened entry, multiply by the
flattened multipliers, and `index_add_` each product into its `mu` slot of a
zero tensor of shape `[X1.shape[0], X2.shape[1], 2*lambd+1]`. -/
def unrolledForwardCuda (trans : List (List (Triple R))) (lambd : ℕ)
    (X1 X2 : T3 R) : T3 R :=
  ⟨X1.nb, X2.nc, 2 * lambd + 1, fun b c mu =>
    (((flattenTrans trans).filter (fun e => (e.2.2.2 : ℤ) = mu)).map
      (fun e => X1.data b c e.1 * X2.data b c e.2.1 * e.2.2.1)).sum⟩

/-- The CPU branch of `ClebschCombiningSingleUnrolled.forward`: for each
`mu` and each triple of `transformation[mu]`, accumulate
`X1[:,:,m1] * X2[:,:,m2] * multiplier` into `result[:,:,mu]`. -/
def unrolledForwardCpu (trans : List (List (Triple R))) (lambd : ℕ)
    (X1 X2 : T3 R) : T3 R :=
  ⟨X1.nb, X2.nc, 2 * lambd + 1, fun b c mu =>
    if h : 0 ≤ mu then
      ((trans.getD mu.toNat []).map
        (fun t => X1.data b c t.1 * X2.data b c t.2.1 * t.2.2)).sum
    else 0⟩

/-- `ClebschCombiningSingleUnrolled.forward`, with the device dispatch of
the source modelled by the boolean `onCuda`. -/
def unrolledForward (onCuda : Bool) (trans : List (List (Triple R))) (lambd : ℕ)
    (X1 X2 : T3 R) : T3 R :=
  if onCuda then unrolledForwardCuda trans lambd X1 X2
  else unrolledForwardCpu trans lambd X1 X2

end Tensors

section BranchEquivalence

variable {R : Type} [LinearOrderedField R]

theorem flattenTransAux_filter_lt (k : ℕ) (trans : List (List (Triple R)))
    (mu : ℤ) (h : mu < k) :
    (flattenTransAux R k trans).filter (fun e => (e.2.2.2 : ℤ) = mu) = [] := by
  induction trans generalizing k with
  | nil => rfl
  | cons slot rest ih =>
    simp only [flattenTransAux, List.filter_append]
    rw [ih (k + 1) (by omega), List.append_nil, List.filter_eq_nil_iff]
    intro a ha
    simp only [List.mem_map] at ha
    obtain ⟨t, _, rfl⟩ := ha
    simp only [decide_eq_true_eq]
    omega

theorem flattenTransAux_filter_get (k : ℕ) (trans : List (List (Triple R)))
    (j : ℕ) (h : j < trans.length) :
    (flattenTransAux R k trans).filter (fun e => (e.2.2.2 : ℤ) = (k + j : ℕ)) =
      (trans.getD j []).map (fun t => (t.1, t.2.1, t.2.2, k + j)) := by
  induction trans generalizing k j with
  | nil => simp at h
  | cons slot rest ih =>
    cases j with
    | zero =>
      simp only [flattenTransAux, List.filter_append, Nat.add_zero, List.getD_cons_zero]
      have h1 : (slot.map (fun t => (t.1, t.2.1, t.2.2, k))).filter
          (fun e => ((e.2.2.2 : ℕ) : ℤ) = (k : ℕ)) =
          slot.map (fun t => (t.1, t.2.1, t.2.2, k)) := by
        rw [List.filter_eq_self]
        intro a ha
        simp only [List.mem_map] at ha
        obtain ⟨t, _, rfl⟩ := ha
        simp
      rw [h1, flattenTransAux_filter_lt (k + 1) rest (k : ℤ) (by omega), List.append_nil]
    | succ j' =>
      simp only [flattenTransAux, List.filter_append, List.getD_cons_succ]
      have h1 : (slot.map (fun t => (t.1, t.2.1, t.2.2, k))).filter
          (fun e => ((e.2.2.2 : ℕ) : ℤ) = ((k + (j' + 1) : ℕ) : ℤ)) = [] := by
        rw [List.filter_eq_nil_iff]
        intro a ha
        simp only [List.mem_map] at ha
        obtain ⟨t, _, rfl⟩ := ha
        simp only [decide_eq_true_eq]
        push_cast
        omega
      rw [h1, List.nil_append]
      have h2 := ih (k + 1) j' (by simpa using h)
      have h3 : ((k + 1 + j' : ℕ) : ℤ) = ((k + (j' + 1) : ℕ) : ℤ) := by push_cast; ring
      rw [h3] at h2
      rw [h2]
      have h4 : k + 1 + j' = k + (j' + 1) := by omega
      rw [h4]

theorem mem_flattenTransAux_lt (k : ℕ) (l : List (List (Triple R))) :
    ∀ e : ℤ × ℤ × R × ℕ, e ∈ flattenTransAux R k l → e.2.2.2 < k + l.length := by
  induction l generalizing k with
  | nil =>
    intro e he
    simp [flattenTransAux] at he
  | cons slot rest ih =>
    intro e he
    simp only [flattenTransAux, List.mem_append, List.mem_map] at he
    rcases he with ⟨t, _, rfl⟩ | he
    · simp only [List.length_cons]
      omega
    · have := ih (k + 1) e he
      simp only [List.length_cons]
      omega

/-- **C1.** For every Clebsch-Gordan slice and every `(l1, l2, lambd)`,
the gather-multiply-scatter (CUDA) branch and the direct per-`mu`
accumulation (CPU) branch of `ClebschCombiningSingleUnrolled.forward`
compute identical results in exact arithmetic, on all inputs. -/
theorem clebsch_unrolled_cuda_eq_cpu (sqrt2 eps : R) (clebsch : ℤ → ℤ → R)
    (l1 l2 lambd : ℕ) (X1 X2 : T3 R) :
    unrolledForwardCuda (precompute_transformation sqrt2 eps clebsch l1 l2 lambd)
        lambd X1 X2 =
      unrolledForwardCpu (precompute_transformation sqrt2 eps clebsch l1 l2 lambd)
        lambd X1 X2 := by
  set trans := precompute_transformation sqrt2 eps clebsch l1 l2 lambd with htrans
  unfold unrolledForwardCuda unrolledForwardCpu flattenTrans
  congr 1
  funext b c mu
  by_cases hmu : 0 ≤ mu
  · rw [dif_pos hmu]
    by_cases hlt : mu.toNat < trans.length
    · have hmu2 : mu = ((0 + mu.toNat : ℕ) : ℤ) := by omega
      rw [hmu2]
      have hget := flattenTransAux_filter_get 0 trans mu.toNat hlt
      unfold flattenTrans at hget
      rw [hget]
      simp only [Nat.zero_add, List.map_map]
      have htn : ((mu.toNat : ℤ)).toNat = mu.toNat := by omega
      rw [htn]
      rfl
    · rw [List.getD_eq_default _ _ (by omega)]
      have hemp : (flattenTransAux R 0 trans).filter
          (fun e => (e.2.2.2 : ℤ) = ((0 + mu.toNat : ℕ) : ℤ)) = [] := by
        rw [List.filter_eq_nil_iff]
        intro e he
        have hbound := mem_flattenTransAux_lt 0 trans e he
        simp only [decide_eq_true_eq]
        omega
      have hmu2 : mu = ((0 + mu.toNat : ℕ) : ℤ) := by omega
      rw [hmu2, hemp]
      simp
  · rw [dif_neg hmu]
    have hemp : (flattenTransAux R 0 trans).filter
        (fun e => (e.2.2.2 : ℤ) = mu) = [] := by
      rw [List.filter_eq_nil_iff]
      intro e _
      simp only [decide_eq_true_eq]
      omega
    rw [hemp]
    simp

end BranchEquivalence

section TransformationSlots

variable {R : Type} [LinearOrderedField R]

theorem transformationStep_length (sqrt2 : R) (clebsch : ℤ → ℤ → R)
    (l1 l2 lambd : ℕ) (res : List (List (Triple R))) (mu : ℕ) :
    (transformationStep sqrt2 clebsch l1 l2 lambd res mu).length = res.length := by
  unfold transformationStep
  split
  · split <;> simp
  · simp

theorem foldl_transformationStep_length (sqrt2 : R) (clebsch : ℤ → ℤ → R)
    (l1 l2 lambd : ℕ) (L : List ℕ) :
    ∀ res, (L.foldl (transformationStep sqrt2 clebsch l1 l2 lambd) res).length =
      res.length := by
  induction L with
  | nil => intro res; rfl
  | cons a L ih =>
    intro res
    rw [List.foldl_cons, ih, transformationStep_length]

theorem transformationStep_getD_ne (sqrt2 : R) (clebsch : ℤ → ℤ → R)
    (l1 l2 lambd : ℕ) (res : List (List (Triple R))) (mu p : ℕ)
    (h1 : 0 < mu → mu + lambd ≠ p ∧ lambd - mu ≠ p) (h2 : mu = 0 → lambd ≠ p) :
    (transformationStep sqrt2 clebsch l1 l2 lambd res mu).getD p [] =
      res.getD p [] := by
  unfold transformationStep
  by_cases hmu : 0 < mu
  · obtain ⟨ha, hb⟩ := h1 hmu
    rw [if_pos hmu]
    by_cases hpar : mu % 2 = 0
    · rw [if_pos hpar, List.getD_eq_getElem?_getD _ p, List.getElem?_set_ne hb,
        List.getElem?_set_ne ha, ← List.getD_eq_getElem?_getD]
    · rw [if_neg hpar, List.getD_eq_getElem?_getD _ p, List.getElem?_set_ne hb,
        List.getElem?_set_ne ha, ← List.getD_eq_getElem?_getD]
  · have hz : mu = 0 := by omega
    rw [if_neg hmu, List.getD_eq_getElem?_getD _ p, List.getElem?_set_ne (h2 hz),
      ← List.getD_eq_getElem?_getD]

theorem foldl_transformationStep_getD_untouched (sqrt2 : R) (clebsch : ℤ → ℤ → R)
    (l1 l2 lambd p : ℕ) (L : List ℕ)
    (hL : ∀ nu ∈ L, (0 < nu → nu + lambd ≠ p ∧ lambd - nu ≠ p) ∧
      (nu = 0 → lambd ≠ p)) :
    ∀ res, (L.foldl (transformationStep sqrt2 clebsch l1 l2 lambd) res).getD p [] =
      res.getD p [] := by
  induction L with
  | nil => intro res; rfl
  | cons a L ih =>
    intro res
    rw [List.foldl_cons, ih (fun nu hnu => hL nu (List.mem_cons_of_mem a hnu)),
      transformationStep_getD_ne sqrt2 clebsch l1 l2 lambd res a p
        (hL a (List.mem_cons_self a L)).1 (hL a (List.mem_cons_self a L)).2]

theorem transformationStep_getD_plus (sqrt2 : R) (clebsch : ℤ → ℤ → R)
    (l1 l2 lambd : ℕ) (res : List (List (Triple R))) (mu : ℕ)
    (hmu : 0 < mu) (hlen : mu + lambd < res.length) :
    (transformationStep sqrt2 clebsch l1 l2 lambd res mu).getD (mu + lambd) [] =
      multiply_sequence (derived_lists sqrt2 clebsch l1 l2 lambd mu).1
        (if mu % 2 = 0 then sqrt2 else -sqrt2) := by
  unfold transformationStep
  rw [if_pos hmu]
  have hne : lambd - mu ≠ mu + lambd := by omega
  by_cases hpar : mu % 2 = 0
  · rw [if_pos hpar, if_pos hpar, List.getD_eq_getElem?_getD _ (mu + lambd),
      List.getElem?_set_ne hne, List.getElem?_set_eq_of_lt _ hlen]
    rfl
  · rw [if_neg hpar, if_neg hpar, List.getD_eq_getElem?_getD _ (mu + lambd),
      List.getElem?_set_ne hne, List.getElem?_set_eq_of_lt _ hlen]
    rfl

theorem transformationStep_getD_minus (sqrt2 : R) (clebsch : ℤ → ℤ → R)
    (l1 l2 lambd : ℕ) (res : List (List (Triple R))) (mu : ℕ)
    (hmu : 0 < mu) (hlen : lambd - mu < res.length) :
    (transformationStep sqrt2 clebsch l1 l2 lambd res mu).getD (lambd - mu) [] =
      multiply_sequence (derived_lists sqrt2 clebsch l1 l2 lambd mu).2
        (if mu % 2 = 0 then sqrt2 else -sqrt2) := by
  unfold transformationStep
  rw [if_pos hmu]
  by_cases hpar : mu % 2 = 0
  · rw [if_pos hpar, if_pos hpar, List.getD_eq_getElem?_getD _ (lambd - mu),
      List.getElem?_set_eq_of_lt _ (by rw [List.length_set]; exact hlen)]
    rfl
  · rw [if_neg hpar, if_neg hpar, List.getD_eq_getElem?_getD _ (lambd - mu),
      List.getElem?_set_eq_of_lt _ (by rw [List.length_set]; exact hlen)]
    rfl

theorem transformationStep_getD_zero (sqrt2 : R) (clebsch : ℤ → ℤ → R)
    (l1 l2 lambd : ℕ) (res : List (List (Triple R)))
    (hlen : lambd < res.length) :
    (transformationStep sqrt2 clebsch l1 l2 lambd res 0).getD lambd [] =
      (derived_lists sqrt2 clebsch l1 l2 lambd 0).1 := by
  unfold transformationStep
  rw [if_neg (by omega), List.getD_eq_getElem?_getD _ lambd,
    List.getElem?_set_eq_of_lt _ hlen]
  rfl

theorem range_split_at (mu lambd : ℕ) (h : mu ≤ lambd) :
    List.range (lambd + 1) =
      List.range mu ++ mu :: (List.range (lambd - mu)).map (fun i => mu + 1 + i) := by
  have h1 : lambd + 1 = mu + (lambd - mu + 1) := by omega
  rw [h1, List.range_add, List.range_succ_eq_map, List.map_cons, List.map_map]
  have h2 : ((fun i => mu + i) ∘ Nat.succ) = fun i => mu + 1 + i := by
    funext i
    simp only [Function.comp_apply]
    omega
  rw [h2]
  simp

theorem compress_nil (eps : R) : compress ([] : List (Triple R)) eps = [] := rfl

end TransformationSlots

section ClaimC2

variable {R : Type} [LinearOrderedField R]

theorem precompute_getD_compress (sqrt2 eps : R) (clebsch : ℤ → ℤ → R)
    (l1 l2 lambd p : ℕ) :
    (precompute_transformation sqrt2 eps clebsch l1 l2 lambd).getD p [] =
      compress (((List.range (lambd + 1)).foldl
        (transformationStep sqrt2 clebsch l1 l2 lambd)
        (List.replicate (2 * lambd + 1) [])).getD p []) eps := by
  unfold precompute_transformation
  have := List.getD_map (d := ([] : List (Triple R)))
    ((List.range (lambd + 1)).foldl (transformationStep sqrt2 clebsch l1 l2 lambd)
      (List.replicate (2 * lambd + 1) [])) (fun l => compress l eps) (n := p)
  rw [compress_nil] at this
  exact this

/-- **C2.** Characterisation of `precompute_transformation`, corrected: each
slot holds the *compressed* version of the list the claim describes.  For
every Clebsch slice and `mu ≤ lambd`: the derived pair after the parity
correction swaps the negated imaginary list into the real role when
`(l1 + l2 - lambd)` is odd; for `mu > 0` slot `mu + lambd` (that is,
`lambd + mu`) holds the compression of the real list scaled by `sqrt2` for
even `mu` and `-sqrt2` for odd `mu`, and slot `lambd - mu` holds the
compression of the imaginary list with the same scaling; slot `lambd`
(`mu = 0`) holds the compression of the unscaled real list. -/
theorem precompute_transformation_slots (sqrt2 eps : R) (clebsch : ℤ → ℤ → R)
    (l1 l2 lambd mu : ℕ) (hmu : mu ≤ lambd) :
    (precompute_transformation sqrt2 eps clebsch l1 l2 lambd).length =
        2 * lambd + 1 ∧
    derived_lists sqrt2 clebsch l1 l2 lambd mu =
      (if ((l1 : ℤ) + l2 - lambd) % 2 = 1 then
        (multiply_sequence (raw_lists sqrt2 clebsch l1 l2 mu).2 (-1),
         (raw_lists sqrt2 clebsch l1 l2 mu).1)
       else raw_lists sqrt2 clebsch l1 l2 mu) ∧
    (0 < mu →
      (precompute_transformation sqrt2 eps clebsch l1 l2 lambd).getD
          (mu + lambd) [] =
        compress (multiply_sequence (derived_lists sqrt2 clebsch l1 l2 lambd mu).1
          (if mu % 2 = 0 then sqrt2 else -sqrt2)) eps ∧
      (precompute_transformation sqrt2 eps clebsch l1 l2 lambd).getD
          (lambd - mu) [] =
        compress (multiply_sequence (derived_lists sqrt2 clebsch l1 l2 lambd mu).2
          (if mu % 2 = 0 then sqrt2 else -sqrt2)) eps) ∧
    (mu = 0 →
      (precompute_transformation sqrt2 eps clebsch l1 l2 lambd).getD lambd [] =
        compress (derived_lists sqrt2 clebsch l1 l2 lambd 0).1 eps) := by
  have hsplit := range_split_at mu lambd hmu
  have hlen : ∀ L : List ℕ,
      (L.foldl (transformationStep sqrt2 clebsch l1 l2 lambd)
        (List.replicate (2 * lambd + 1) ([] : List (Triple R)))).length =
        2 * lambd + 1 := by
    intro L
    rw [foldl_transformationStep_length, List.length_replicate]
  refine ⟨?_, ?_, ?_, ?_⟩
  · unfold precompute_transformation
    rw [List.length_map, hlen]
  · unfold derived_lists
    rfl
  · intro hpos
    have htail : ∀ nu ∈ (List.range (lambd - mu)).map (fun i => mu + 1 + i),
        mu < nu ∧ nu ≤ lambd := by
      intro nu hnu
      simp only [List.mem_map, List.mem_range] at hnu
      obtain ⟨i, hi, rfl⟩ := hnu
      omega
    constructor
    · rw [precompute_getD_compress, hsplit, List.foldl_append, List.foldl_cons,
        foldl_transformationStep_getD_untouched sqrt2 clebsch l1 l2 lambd
          (mu + lambd) _ (by
            intro nu hnu
            have := htail nu hnu
            constructor
            · intro _
              omega
            · intro _
              omega),
        transformationStep_getD_plus sqrt2 clebsch l1 l2 lambd _ mu hpos
          (by rw [hlen]; omega)]
    · rw [precompute_getD_compress, hsplit, List.foldl_append, List.foldl_cons,
        foldl_transformationStep_getD_untouched sqrt2 clebsch l1 l2 lambd
          (lambd - mu) _ (by
            intro nu hnu
            have := htail nu hnu
            constructor
            · intro _
              omega
            · intro _
              omega),
        transformationStep_getD_minus sqrt2 clebsch l1 l2 lambd _ mu hpos
          (by rw [hlen]; omega)]
  · intro hz
    subst hz
    rw [precompute_getD_compress, hsplit]
    simp only [Nat.sub_zero, List.range_zero, List.nil_append, List.foldl_cons]
    rw [foldl_transformationStep_getD_untouched sqrt2 clebsch l1 l2 lambd
        lambd _ (by
          intro nu hnu
          simp only [List.mem_map, List.mem_range] at hnu
          obtain ⟨i, hi, rfl⟩ := hnu
          constructor
          · intro _
            omega
          · intro h0
            omega),
      transformationStep_getD_zero sqrt2 clebsch l1 l2 lambd _
        (by rw [List.length_replicate]; omega)]

/-- Witness for `precompute_transformation_slots` at the concrete input
`R = ℚ`, `sqrt2 = 3/2`, `eps = 1/10^15`, the constant-1 Clebsch slice,
`l1 = l2 = 1`, `lambd = 1`, `mu = 1`. -/
theorem precompute_transformation_slots_witness :
    (1 : ℕ) ≤ 1 ∧
    ((precompute_transformation (3/2 : ℚ) (1/10^15) (fun _ _ => 1) 1 1 1).length =
        2 * 1 + 1 ∧
    derived_lists (3/2 : ℚ) (fun _ _ => 1) 1 1 1 1 =
      (if ((1 : ℤ) + 1 - 1) % 2 = 1 then
        (multiply_sequence (raw_lists (3/2 : ℚ) (fun _ _ => 1) 1 1 1).2 (-1),
         (raw_lists (3/2 : ℚ) (fun _ _ => 1) 1 1 1).1)
       else raw_lists (3/2 : ℚ) (fun _ _ => 1) 1 1 1) ∧
    (0 < 1 →
      (precompute_transformation (3/2 : ℚ) (1/10^15) (fun _ _ => 1) 1 1 1).getD
          (1 + 1) [] =
        compress (multiply_sequence
          (derived_lists (3/2 : ℚ) (fun _ _ => 1) 1 1 1 1).1
          (if 1 % 2 = 0 then (3/2 : ℚ) else -(3/2 : ℚ))) (1/10^15) ∧
      (precompute_transformation (3/2 : ℚ) (1/10^15) (fun _ _ => 1) 1 1 1).getD
          (1 - 1) [] =
        compress (multiply_sequence
          (derived_lists (3/2 : ℚ) (fun _ _ => 1) 1 1 1 1).2
          (if 1 % 2 = 0 then (3/2 : ℚ) else -(3/2 : ℚ))) (1/10^15)) ∧
    ((1 : ℕ) = 0 →
      (precompute_transformation (3/2 : ℚ) (1/10^15) (fun _ _ => 1) 1 1 1).getD 1 [] =
        compress (derived_lists (3/2 : ℚ) (fun _ _ => 1) 1 1 1 0).1 (1/10^15))) :=
  ⟨by decide,
   precompute_transformation_slots (3/2 : ℚ) (1/10^15) (fun _ _ => 1) 1 1 1 1
     (by decide)⟩

/-- **C2, counterexample.** The claim as stated is false: a slot of
`precompute_transformation` is the *compressed* list, not the raw derived
list.  At `l1 = l2 = lambd = 0` with the constant-1 Clebsch slice, slot
`lambd = 0` is `[(0, 0, 1)]` while the unscaled real list is
`[(0, 0, 1), (0, 0, 0)]` (the code drops the zero-multiplier entry coming
from the imaginary-times-imaginary cross term). -/
theorem precompute_transformation_slot_ne_raw :
    (precompute_transformation (3/2 : ℚ) (1/10^15) (fun _ _ => 1) 0 0 0).getD 0 [] ≠
      (derived_lists (3/2 : ℚ) (fun _ _ => 1) 0 0 0 0).1 := by
  norm_num [precompute_transformation, transformationStep, derived_lists, raw_lists,
    get_conversion, multiply, compress, compressAux, List.range_succ]

end ClaimC2

section ClaimC3

/-- **C3.** `compress` does not implement "drop every pair whose total
summed multiplier is at most `epsilon`": on the input
`[(0,0,1), (0,0,-1)]` with `epsilon = 1/100` the total multiplier of the
pair `(0,0)` is `0`, whose absolute value is below the tolerance, yet the
output still contains the pair — with the partial suffix sum `-1` rather
than the total `0` — because a pair dropped at its first occurrence is
reconsidered at later occurrences. -/
theorem compress_keeps_cancelled_pair :
    compress [((0 : ℤ), (0 : ℤ), (1 : ℚ)), ((0 : ℤ), (0 : ℤ), (-1 : ℚ))]
        (1/100) = [((0 : ℤ), (0 : ℤ), (-1 : ℚ))] ∧
    (1 : ℚ) + (-1) = 0 ∧ |(0 : ℚ)| ≤ 1/100 := by
  refine ⟨by norm_num [compress, compressAux], by norm_num, by norm_num⟩

end ClaimC3

section Combining

variable {R : Type} [LinearOrderedField R]

instance : Inhabited (T3 R) := ⟨⟨0, 0, 0, fun _ _ _ => 0⟩⟩

/-- The expansion of `X1` in the task-free branch of
`ClebschCombiningSingle.forward`:
`X1[:, :, None, :].repeat(1, 1, c2, 1).reshape(b, c1*c2, m)` — channel `k`
of the expanded tensor is channel `k / c2` of `X1`. -/
def expandFirst (c2 : ℕ) (X : T3 R) : T3 R :=
  ⟨X.nb, X.nc * c2, X.nm, fun b k m => X.data b (k / c2) m⟩

/-- The expansion of `X2` in the task-free branch of
`ClebschCombiningSingle.forward`:
`X2[:, None, :, :].repeat(1, c1, 1, 1).reshape(b, c1*c2, m)` — channel `k`
of the expanded tensor is channel `k % c2` of `X2`. -/
def expandSecond (c1 : ℕ) (X : T3 R) : T3 R :=
  ⟨X.nb, c1 * X.nc, X.nm, fun b k m => X.data b (k % X.nc) m⟩

/-- The task-free path of `ClebschCombiningSingle.forward`: expand both
inputs to the full channel outer product and apply the unrolled combiner
(whose transformation is precomputed from the Clebsch slice, as in
`ClebschCombiningSingle.__init__`). -/
def singleNoTask (onCuda : Bool) (sqrt2 eps : R) (clebsch : ℤ → ℤ → R)
    (l1 l2 lambd : ℕ) (X1 X2 : T3 R) : T3 R :=
  unrolledForward onCuda (precompute_transformation sqrt2 eps clebsch l1 l2 lambd)
    lambd (expandFirst X2.nc X1) (expandSecond X1.nc X2)

/-- `ClebschCombiningSingle.forward`.  When `self.task is None` the source
expands both inputs and applies the unrolled combiner.  In the `else`
branch the source executes
`first = torch.index_select(first, 1, self.task[:, 0])` — reading the local
variables `first` and `second` before any assignment — and therefore raises
`UnboundLocalError`; that failure is modelled by `none`. -/
def clebschCombiningSingleForward (onCuda : Bool) (sqrt2 eps : R)
    (clebsch : ℤ → ℤ → R) (l1 l2 lambd : ℕ) (task : Option (List (ℕ × ℕ)))
    (X1 X2 : T3 R) : Option (T3 R) :=
  match task with
  | none => some (singleNoTask onCuda sqrt2 eps clebsch l1 l2 lambd X1 X2)
  | some _ => none

/-- `torch.cat([A, B], dim=1)`: concatenation along the channel axis. -/
def catChannels (A B : T3 R) : T3 R :=
  ⟨A.nb, A.nc + B.nc, A.nm, fun b c m =>
    if c < A.nc then A.data b c m else B.data b (c - A.nc) m⟩

/-- `torch.cat(parts, dim=1)` over a list: raises on an empty list
(modelled by `none`), otherwise folds `catChannels` over the parts. -/
def catOpt : List (T3 R) → Option (T3 R)
  | [] => none
  | t :: ts => some (ts.foldl catChannels t)

/-- The per-`lambd` contribution list built by the key loops of
`ClebschCombining.forward`: for `key1` over `X1`'s entries (in insertion
order) and `key2` over `X2`'s entries, the pair contributes whenever
`lambd` lies in `range(abs(l1 - l2), min(l1 + l2, lambd_max) + 1)`, and the
contribution is the stored single combiner (task-free, built on the slice
`clebsch[l1, l2, lambd]`) applied to the two tensors. -/
def combiningParts (onCuda : Bool) (sqrt2 eps : R)
    (table : ℕ → ℕ → ℕ → ℤ → ℤ → R) (lambdMax : ℕ)
    (X1 X2 : List (ℕ × T3 R)) (lambd : ℕ) : List (T3 R) :=
  X1.flatMap (fun p1 =>
    X2.flatMap (fun p2 =>
      if ((p1.1 : ℤ) - p2.1).natAbs ≤ lambd ∧ lambd ≤ min (p1.1 + p2.1) lambdMax then
        [singleNoTask onCuda sqrt2 eps (fun i j => table p1.1 p2.1 lambd i j)
          p1.1 p2.1 lambd p1.2 p2.2]
      else []))

/-- The final loop of `ClebschCombining.forward`: for each output `lambd`
in order, `torch.cat` the collected contributions; an empty contribution
list makes the whole call fail. -/
def buildResult (parts : ℕ → List (T3 R)) : List ℕ → Option (List (ℕ × T3 R))
  | [] => some []
  | lambd :: rest =>
    match catOpt (parts lambd), buildResult parts rest with
    | some t, some r => some ((lambd, t) :: r)
    | _, _ => none

/-- `ClebschCombining.forward`: one concatenated tensor per output order
`lambd` in `0 .. lambd_max`, keyed by `lambd`. -/
def clebschCombiningForward (onCuda : Bool) (sqrt2 eps : R)
    (table : ℕ → ℕ → ℕ → ℤ → ℤ → R) (lambdMax : ℕ)
    (X1 X2 : List (ℕ × T3 R)) : Option (List (ℕ × T3 R)) :=
  buildResult (combiningParts onCuda sqrt2 eps table lambdMax X1 X2)
    (List.range (lambdMax + 1))

end Combining

section ClaimC6

variable {R : Type} [LinearOrderedField R]

/-- **C6.** The claim is wrong about the code: when a task list is
configured, `ClebschCombiningSingle.forward` never combines the listed
channel pairs — its `else` branch reads the local variables `first` and
`second` before they are assigned (`first = torch.index_select(first, 1,
self.task[:, 0])`), so the call raises `UnboundLocalError` on every input
instead of gathering the listed channels of `X1` and `X2`. -/
theorem clebschCombiningSingle_task_branch_fails (onCuda : Bool) (sqrt2 eps : R)
    (clebsch : ℤ → ℤ → R) (l1 l2 lambd : ℕ) (task : List (ℕ × ℕ))
    (X1 X2 : T3 R) :
    clebschCombiningSingleForward onCuda sqrt2 eps clebsch l1 l2 lambd
      (some task) X1 X2 = none := rfl

end ClaimC6

section CombiningLemmas

variable {R : Type} [LinearOrderedField R]

theorem unrolledForward_nc (onCuda : Bool) (trans : List (List (Triple R)))
    (lambd : ℕ) (X1 X2 : T3 R) :
    (unrolledForward onCuda trans lambd X1 X2).nc = X2.nc := by
  cases onCuda <;> rfl

theorem singleNoTask_nc (onCuda : Bool) (sqrt2 eps : R) (clebsch : ℤ → ℤ → R)
    (l1 l2 lambd : ℕ) (X1 X2 : T3 R) :
    (singleNoTask onCuda sqrt2 eps clebsch l1 l2 lambd X1 X2).nc =
      X1.nc * X2.nc := by
  unfold singleNoTask
  rw [unrolledForward_nc]
  rfl

/-- Total version of `torch.cat` on a non-empty list of parts. -/
def catHead (l : List (T3 R)) : T3 R := l.tail.foldl catChannels l.headI

theorem catOpt_eq_some (l : List (T3 R)) (h : l ≠ []) :
    catOpt l = some (catHead l) := by
  cases l with
  | nil => exact absurd rfl h
  | cons t ts => rfl

theorem foldl_catChannels_nc (ts : List (T3 R)) :
    ∀ a : T3 R, (ts.foldl catChannels a).nc = a.nc + (ts.map T3.nc).sum := by
  induction ts with
  | nil =>
    intro a
    simp
  | cons b ts ih =>
    intro a
    rw [List.foldl_cons, ih, List.map_cons, List.sum_cons]
    show a.nc + b.nc + _ = _
    ring

theorem catOpt_map_nc (l : List (T3 R)) (h : l ≠ []) :
    (catOpt l).map T3.nc = some ((l.map T3.nc).sum) := by
  cases l with
  | nil => exact absurd rfl h
  | cons t ts =>
    show some ((ts.foldl catChannels t).nc) = _
    rw [foldl_catChannels_nc, List.map_cons, List.sum_cons]

theorem lookup_map_self {β : Type} (L : List ℕ) (f : ℕ → β) (l0 : ℕ)
    (h : l0 ∈ L) :
    (L.map (fun l => (l, f l))).lookup l0 = some (f l0) := by
  induction L with
  | nil => simp at h
  | cons a L ih =>
    by_cases ha : a = l0
    · subst ha
      simp [List.lookup]
    · rcases List.mem_cons.mp h with h' | h'
      · exact absurd h'.symm ha
      · simp only [List.map_cons, List.lookup]
        have hba : (l0 == a) = false :=
          beq_eq_false_iff_ne.mpr (fun hh => ha hh.symm)
        rw [hba]
        exact ih h'

theorem buildResult_eq_map (parts : ℕ → List (T3 R)) (L : List ℕ)
    (h : ∀ l ∈ L, parts l ≠ []) :
    buildResult parts L = some (L.map (fun l => (l, catHead (parts l)))) := by
  induction L with
  | nil => rfl
  | cons a L ih =>
    unfold buildResult
    rw [catOpt_eq_some _ (h a (List.mem_cons_self a L)),
      ih (fun l hl => h l (List.mem_cons_of_mem a hl))]
    rfl

theorem flatMap_congr_fun {α β : Type} (l : List α) (f g : α → List β)
    (h : ∀ a ∈ l, f a = g a) : l.flatMap f = l.flatMap g := by
  induction l with
  | nil => rfl
  | cons a l ih =>
    simp only [List.flatMap_cons]
    rw [h a (List.mem_cons_self a l),
      ih (fun b hb => h b (List.mem_cons_of_mem a hb))]

theorem buildResult_none_of_mem (parts : ℕ → List (T3 R)) (L : List ℕ)
    (l0 : ℕ) (hm : l0 ∈ L) (hp : parts l0 = []) :
    buildResult parts L = none := by
  induction L with
  | nil => simp at hm
  | cons a L ih =>
    unfold buildResult
    rcases List.mem_cons.mp hm with h' | h'
    · subst h'
      rw [hp]
      rfl
    · rw [ih h']
      cases catOpt (parts a) <;> rfl

end CombiningLemmas

section ClaimC10

variable {R : Type} [LinearOrderedField R]

/-- **C10.** `ClebschCombining.forward` fails whenever some output order
`lambd ≤ lambd_max` receives no contribution: if no pair of keys `l1` of
`X1` and `l2` of `X2` satisfies `|l1 - l2| ≤ lambd ≤ l1 + l2`, the
contribution list for `lambd` is empty and the final `torch.cat` of an
empty list aborts the whole call (result `none`), instead of returning a
value for that `lambd`. -/
theorem clebschCombiningForward_gap_fails (onCuda : Bool) (sqrt2 eps : R)
    (table : ℕ → ℕ → ℕ → ℤ → ℤ → R) (lambdMax : ℕ) (X1 X2 : List (ℕ × T3 R))
    (lambd : ℕ) (hle : lambd ≤ lambdMax)
    (hgap : ∀ p1 ∈ X1, ∀ p2 ∈ X2,
      ¬(((p1.1 : ℤ) - p2.1).natAbs ≤ lambd ∧ lambd ≤ p1.1 + p2.1)) :
    clebschCombiningForward onCuda sqrt2 eps table lambdMax X1 X2 = none := by
  unfold clebschCombiningForward
  apply buildResult_none_of_mem _ _ lambd (List.mem_range.mpr (by omega))
  unfold combiningParts
  rw [List.bind_eq_nil]
  intro p1 h1
  rw [List.bind_eq_nil]
  intro p2 h2
  rw [if_neg]
  intro hc
  exact hgap p1 h1 p2 h2 ⟨hc.1, le_trans hc.2 (min_le_left _ _)⟩

/-- Witness for `clebschCombiningForward_gap_fails`: both inputs hold only
order-0 features while `lambd_max = 1`, so order 1 gets no contribution. -/
theorem clebschCombiningForward_gap_fails_witness :
    (1 : ℕ) ≤ 1 ∧
    clebschCombiningForward false (3/2 : ℚ) (1/10^15) (fun _ _ _ _ _ => 1) 1
      [(0, (default : T3 ℚ))] [(0, (default : T3 ℚ))] = none :=
  ⟨le_refl 1,
   clebschCombiningForward_gap_fails false (3/2 : ℚ) (1/10^15)
     (fun _ _ _ _ _ => 1) 1 [(0, default)] [(0, default)] 1 (le_refl 1)
     (by
       intro p1 h1 p2 h2
       simp only [List.mem_singleton] at h1 h2
       subst h1
       subst h2
       norm_num)⟩

end ClaimC10

section ClaimC5

variable {R : Type} [LinearOrderedField R]

/-- **C5 (amended).** For everything the source guarantees: when every
output order receives at least one contribution, the tensor
`ClebschCombining.forward` produces for `lambd` is the channel-dimension
concatenation of the per-`(l1, l2)`-pair combiner outputs taken in the
order in which the source iterates the keys of `X1` (outer loop) and `X2`
(inner loop) — i.e. dict insertion order, not the sorted-by-`(l1,l2)`
order the claim states — and its channel count equals the sum over all
contributing `(l1, l2)` pairs of `(channels of X1[l1]) * (channels of
X2[l2])`. -/
theorem clebschCombiningForward_concat_channels (onCuda : Bool) (sqrt2 eps : R)
    (table : ℕ → ℕ → ℕ → ℤ → ℤ → R) (lambdMax : ℕ) (X1 X2 : List (ℕ × T3 R))
    (hall : ∀ l ≤ lambdMax,
      combiningParts onCuda sqrt2 eps table lambdMax X1 X2 l ≠ [])
    (lambd : ℕ) (hla : lambd ≤ lambdMax) :
    (clebschCombiningForward onCuda sqrt2 eps table lambdMax X1 X2).bind
        (fun res => res.lookup lambd) =
      catOpt (combiningParts onCuda sqrt2 eps table lambdMax X1 X2 lambd) ∧
    (catOpt (combiningParts onCuda sqrt2 eps table lambdMax X1 X2 lambd)).map
        T3.nc =
      some ((X1.flatMap (fun p1 => X2.flatMap (fun p2 =>
        if ((p1.1 : ℤ) - p2.1).natAbs ≤ lambd ∧
            lambd ≤ min (p1.1 + p2.1) lambdMax then
          [p1.2.nc * p2.2.nc]
        else []))).sum) := by
  constructor
  · unfold clebschCombiningForward
    rw [buildResult_eq_map _ _ (fun l hl =>
      hall l (by exact Nat.lt_succ_iff.mp (List.mem_range.mp hl)))]
    show List.lookup lambd _ = _
    rw [lookup_map_self _ _ lambd (List.mem_range.mpr (by omega)),
      catOpt_eq_some _ (hall lambd hla)]
  · rw [catOpt_map_nc _ (hall lambd hla)]
    congr 1
    unfold combiningParts
    rw [List.map_flatMap]
    refine congrArg List.sum ?_
    apply flatMap_congr_fun
    intro p1 _
    rw [List.map_flatMap]
    apply flatMap_congr_fun
    intro p2 _
    by_cases hc : ((p1.1 : ℤ) - p2.1).natAbs ≤ lambd ∧
        lambd ≤ min (p1.1 + p2.1) lambdMax
    · rw [if_pos hc, if_pos hc, List.map_singleton, singleNoTask_nc]
    · rw [if_neg hc, if_neg hc]
      rfl

/-- Witness for `clebschCombiningForward_concat_channels` at a concrete
input: single-key mappings `X1 = X2 = [(0, default)]`, `lambd_max = 0`. -/
theorem clebschCombiningForward_concat_channels_witness :
    (∀ l ≤ 0, combiningParts false (3/2 : ℚ) (1/10^15) (fun _ _ _ _ _ => 1) 0
      [(0, (default : T3 ℚ))] [(0, (default : T3 ℚ))] l ≠ []) ∧
    (0 : ℕ) ≤ 0 ∧
    ((clebschCombiningForward false (3/2 : ℚ) (1/10^15) (fun _ _ _ _ _ => 1) 0
        [(0, (default : T3 ℚ))] [(0, (default : T3 ℚ))]).bind
        (fun res => res.lookup 0) =
      catOpt (combiningParts false (3/2 : ℚ) (1/10^15) (fun _ _ _ _ _ => 1) 0
        [(0, (default : T3 ℚ))] [(0, (default : T3 ℚ))] 0) ∧
    (catOpt (combiningParts false (3/2 : ℚ) (1/10^15) (fun _ _ _ _ _ => 1) 0
        [(0, (default : T3 ℚ))] [(0, (default : T3 ℚ))] 0)).map T3.nc =
      some (([(0, (default : T3 ℚ))].flatMap (fun p1 =>
        [(0, (default : T3 ℚ))].flatMap (fun p2 =>
          if ((p1.1 : ℤ) - p2.1).natAbs ≤ 0 ∧ 0 ≤ min (p1.1 + p2.1) 0 then
            [p1.2.nc * p2.2.nc]
          else []))).sum)) := by
  have hall : ∀ l ≤ 0, combiningParts false (3/2 : ℚ) (1/10^15)
      (fun _ _ _ _ _ => 1) 0 [(0, (default : T3 ℚ))] [(0, (default : T3 ℚ))]
      l ≠ [] := by
    intro l hl
    have hl0 : l = 0 := by omega
    subst hl0
    simp [combiningParts]
  exact ⟨hall, le_refl 0,
    clebschCombiningForward_concat_channels false (3/2 : ℚ) (1/10^15)
      (fun _ _ _ _ _ => 1) 0 [(0, default)] [(0, default)] hall 0 (le_refl 0)⟩

/-- The `(l1, l2) = (0, 0)` input tensors of the order counterexample:
one batch row, one channel, constant entries. -/
def cxA0 : T3 ℚ := ⟨1, 1, 1, fun _ _ _ => 2⟩

/-- The `(l1, l2) = (1, 1)` input tensors of the order counterexample. -/
def cxA1 : T3 ℚ := ⟨1, 1, 3, fun _ _ _ => 5⟩

/-- Coupling table of the order counterexample: the `(0,0)` slice is
constant 1, every other slice is 0. -/
def cxTable : ℕ → ℕ → ℕ → ℤ → ℤ → ℚ :=
  fun l1 l2 _ _ _ => if l1 = 0 ∧ l2 = 0 then 1 else 0

set_option maxHeartbeats 1600000 in
/-- **C5, counterexample.** The concatenation order of
`ClebschCombining.forward` is the key iteration order of the input dicts,
not "sorted by l1 then l2": with `X1 = X2` holding key 1 before key 0 and
`lambd_max = 0`, the code concatenates the `(1,1)` output (here 0) before
the `(0,0)` output (here 4), so entry `[0,0,0]` of the result is `0`,
while the sorted-order concatenation asserted by the claim has `4` there. -/
theorem clebschCombiningForward_not_sorted :
    ((clebschCombiningForward false (3/2 : ℚ) (1/2) cxTable 0
        [(1, cxA1), (0, cxA0)] [(1, cxA1), (0, cxA0)]).bind
        (fun res => res.lookup 0)).map (fun T => T.data 0 0 0) = some 0 ∧
    ((catOpt [singleNoTask false (3/2 : ℚ) (1/2)
          (fun i j => cxTable 0 0 0 i j) 0 0 0 cxA0 cxA0,
        singleNoTask false (3/2 : ℚ) (1/2)
          (fun i j => cxTable 1 1 0 i j) 1 1 0 cxA1 cxA1]).map
        (fun T => T.data 0 0 0)) = some 4 ∧
    (0 : ℚ) ≠ 4 := by
  refine ⟨?_, ?_, by norm_num⟩
  · norm_num [clebschCombiningForward, buildResult, combiningParts, catOpt,
      catChannels, singleNoTask, unrolledForward, unrolledForwardCpu,
      expandFirst, expandSecond, precompute_transformation, transformationStep,
      derived_lists, raw_lists, get_conversion, multiply, multiply_sequence,
      compress, compressAux, cxTable, cxA0, cxA1, List.lookup,
      List.range_succ]
  · norm_num [catOpt, catChannels, singleNoTask, unrolledForward,
      unrolledForwardCpu, expandFirst, expandSecond,
      precompute_transformation, transformationStep, derived_lists,
      raw_lists, get_conversion, multiply, multiply_sequence, compress,
      compressAux, cxTable, cxA0, cxA1, List.range_succ]

end ClaimC5

section SpeciesRouting

variable {S K ρ : Type} [LinearOrder S] [DecidableEq K]

/-- `np.unique(central_species)`: the distinct labels in ascending order. -/
def sortedUnique (l : List S) : List S :=
  l.dedup.mergeSort (fun a b => a ≤ b)

theorem mem_sortedUnique (l : List S) (a : S) : a ∈ sortedUnique l ↔ a ∈ l := by
  unfold sortedUnique
  rw [List.mem_mergeSort, List.mem_dedup]

theorem nodup_sortedUnique (l : List S) : (sortedUnique l).Nodup :=
  (List.mergeSort_perm l.dedup _).nodup_iff.mpr l.nodup_dedup

/-- Boolean-mask row selection `value[central_species == specie]`: the rows
whose label equals `s`, in order. -/
def maskSelect (species : List S) (s : S) (rows : List ρ) : List ρ :=
  ((species.zip rows).filter (fun p => p.1 = s)).map Prod.snd

theorem maskSelect_cons (sp : S) (sps : List S) (s : S) (r : ρ) (rs : List ρ) :
    maskSelect (sp :: sps) s (r :: rs) =
      if sp = s then r :: maskSelect sps s rs else maskSelect sps s rs := by
  unfold maskSelect
  rw [List.zip_cons_cons, List.filter_cons]
  by_cases h : sp = s
  · simp [h]
  · simp [h]

/-- `CentralSplitter.forward`: for each distinct label (in `np.unique`
order), the sub-dictionary of every feature restricted by the boolean mask
`central_species == specie`. -/
def centralSplitterForward (features : List (K × List ρ)) (species : List S) :
    List (S × List (K × List ρ)) :=
  (sortedUnique species).map (fun s =>
    (s, features.map (fun kv => (kv.1, maskSelect species s kv.2))))

/-- The masked scatter write `result[key][mask] = block` of
`CentralUniter.forward`: positions whose label is `s` receive the next
element of `block` in order, other positions keep their current value.
(When `block` is shorter than the mask count the remaining masked
positions keep their value; torch would raise instead, but every use in
the claims supplies exactly matching lengths.) -/
def maskedWrite : List S → S → List ρ → List ρ → List ρ
  | sp :: sps, s, block, c :: cs =>
    if sp = s then block.headD c :: maskedWrite sps s block.tail cs
    else c :: maskedWrite sps s block cs
  | _, _, _, cur => cur

/-- `CentralUniter.forward`.  `all_species = np.unique(central_species)`;
the code indexes `features[all_species[0]]` (an `IndexError` when the label
array is empty, modelled by `none`), derives each key's output shape by
accumulating the per-species row counts, allocates `torch.empty` (the
arbitrary initial contents are modelled by the parameter `initF`), and then
scatter-writes every species' rows back through the mask
`specie == central_species`.  Dictionary lookups are modelled with an
empty-list default; the source would raise `KeyError` where that default is
used, but no claim exercises those inputs. -/
def centralUniterForward (split : List (S × List (K × List ρ))) (species : List S)
    (initF : K → ℕ → ρ) : Option (List (K × List ρ)) :=
  (sortedUnique species).head?.bind (fun s0 =>
    (split.lookup s0).map (fun firstDict =>
      firstDict.map (fun kv =>
        (kv.1, split.foldl
          (fun cur sd => maskedWrite species sd.1 ((sd.2.lookup kv.1).getD []) cur)
          ((List.range (((sortedUnique species).map (fun s =>
            (((((split.lookup s).getD []).lookup kv.1).getD []).length))).sum)).map
            (initF kv.1))))))

theorem maskedWrite_length :
    ∀ (species : List S) (s : S) (block cur : List ρ),
      (maskedWrite species s block cur).length = cur.length := by
  intro species
  induction species with
  | nil =>
    intro s block cur
    cases cur <;> rfl
  | cons sp sps ih =>
    intro s block cur
    cases cur with
    | nil => rfl
    | cons c cs =>
      unfold maskedWrite
      by_cases h : sp = s
      · rw [if_pos h]
        simp [ih]
      · rw [if_neg h]
        simp [ih]

theorem maskedWrite_select_getElem (s : S) :
    ∀ (species : List S) (rows cur : List ρ) (i : ℕ),
      species.length = rows.length →
      (maskedWrite species s (maskSelect species s rows) cur)[i]? =
        if species[i]? = some s ∧ i < cur.length then rows[i]? else cur[i]? := by
  intro species
  induction species with
  | nil =>
    intro rows cur i _
    simp [maskedWrite]
  | cons sp sps ih =>
    intro rows cur i h
    cases rows with
    | nil => simp at h
    | cons r rs =>
      cases cur with
      | nil =>
        have : maskedWrite (sp :: sps) s (maskSelect (sp :: sps) s (r :: rs))
            ([] : List ρ) = [] := rfl
        rw [this]
        simp
      | cons c cs =>
        rw [maskSelect_cons]
        by_cases hsp : sp = s
        · rw [if_pos hsp]
          show (if sp = s then _ else _)[i]? = _
          rw [if_pos hsp]
          cases i with
          | zero => simp [hsp]
          | succ j =>
            simp only [List.getElem?_cons_succ, List.headD_cons, List.tail_cons]
            rw [ih rs cs j (by simpa using h)]
            simp [Nat.succ_lt_succ_iff]
        · rw [if_neg hsp]
          show (if sp = s then _ else _)[i]? = _
          rw [if_neg hsp]
          cases i with
          | zero =>
            have : ¬((sp :: sps)[0]? = some s ∧ 0 < (c :: cs).length) := by
              simp [hsp]
            rw [if_neg this]
            simp
          | succ j =>
            simp only [List.getElem?_cons_succ]
            rw [ih rs cs j (by simpa using h)]
            simp [Nat.succ_lt_succ_iff]

theorem fold_maskedWrite_length (species : List S) (B : S → List ρ) :
    ∀ (L : List S) (cur : List ρ),
      (L.foldl (fun cur s => maskedWrite species s (B s) cur) cur).length =
        cur.length := by
  intro L
  induction L with
  | nil => intro cur; rfl
  | cons a L ih =>
    intro cur
    rw [List.foldl_cons, ih, maskedWrite_length]

theorem fold_maskedWrite_preserve (species : List S) (rows : List ρ)
    (hlen : species.length = rows.length) (lab : S) (i : ℕ)
    (hlab : species[i]? = some lab) :
    ∀ (L : List S) (cur : List ρ), lab ∉ L →
      (L.foldl (fun cur s => maskedWrite species s (maskSelect species s rows) cur)
        cur)[i]? = cur[i]? := by
  intro L
  induction L with
  | nil => intro cur _; rfl
  | cons a L ih =>
    intro cur hni
    rw [List.foldl_cons, ih _ (fun hm => hni (List.mem_cons_of_mem a hm)),
      maskedWrite_select_getElem a species rows cur i hlen, if_neg]
    intro hc
    rw [hlab] at hc
    exact hni (by
      have : lab = a := by
        have := hc.1
        injection this
      rw [this]
      exact List.mem_cons_self a L)

theorem fold_maskedWrite_write (species : List S) (rows : List ρ)
    (hlen : species.length = rows.length) (lab : S) (i : ℕ)
    (hlab : species[i]? = some lab) :
    ∀ (L : List S) (cur : List ρ), lab ∈ L → i < cur.length →
      (L.foldl (fun cur s => maskedWrite species s (maskSelect species s rows) cur)
        cur)[i]? = rows[i]? := by
  intro L
  induction L with
  | nil =>
    intro cur hm
    simp at hm
  | cons a L ih =>
    intro cur hm hi
    rw [List.foldl_cons]
    by_cases hmem : lab ∈ L
    · exact ih _ hmem (by rw [maskedWrite_length]; exact hi)
    · have hla : lab = a := by
        rcases List.mem_cons.mp hm with h | h
        · exact h
        · exact absurd h hmem
      subst hla
      rw [fold_maskedWrite_preserve species rows hlen lab i hlab L _ hmem,
        maskedWrite_select_getElem lab species rows cur i hlen,
        if_pos ⟨hlab, hi⟩]

theorem lookup_map_fn {α β : Type} [DecidableEq α] (L : List α) (f : α → β)
    (a0 : α) (h : a0 ∈ L) :
    (L.map (fun a => (a, f a))).lookup a0 = some (f a0) := by
  induction L with
  | nil => simp at h
  | cons a L ih =>
    by_cases ha : a = a0
    · subst ha
      simp [List.lookup]
    · rcases List.mem_cons.mp h with h' | h'
      · exact absurd h'.symm ha
      · simp only [List.map_cons, List.lookup]
        have hba : (a0 == a) = false :=
          beq_eq_false_iff_ne.mpr (fun hh => ha hh.symm)
        rw [hba]
        exact ih h'

theorem lookup_of_nodup {α β : Type} [DecidableEq α] (l : List (α × β))
    (k : α) (v : β) (hn : (l.map Prod.fst).Nodup) (hm : (k, v) ∈ l) :
    l.lookup k = some v := by
  induction l with
  | nil => simp at hm
  | cons p l ih =>
    rcases List.mem_cons.mp hm with h | h
    · subst h
      simp [List.lookup]
    · have hne : p.1 ≠ k := by
        intro he
        have : k ∈ l.map Prod.fst := List.mem_map.mpr ⟨(k, v), h, rfl⟩
        rw [List.map_cons, he] at hn
        exact (List.nodup_cons.mp hn).1 this
      show List.lookup k (p :: l) = some v
      rw [List.lookup]
      have hba : (k == p.1) = false :=
        beq_eq_false_iff_ne.mpr (fun hh => hne hh.symm)
      rw [hba]
      exact ih (List.nodup_cons.mp (by rwa [List.map_cons] at hn)).2 h

theorem sum_map_ite_zero {α : Type} [DecidableEq α] (a : α) (L : List α)
    (h : a ∉ L) :
    (L.map (fun s => if a = s then (1 : ℕ) else 0)).sum = 0 := by
  induction L with
  | nil => rfl
  | cons b L ih =>
    have hab : a ≠ b := fun he => h (he ▸ List.mem_cons_self b L)
    rw [List.map_cons, List.sum_cons, if_neg hab,
      ih (fun hm => h (List.mem_cons_of_mem b hm))]

theorem sum_map_ite_one {α : Type} [DecidableEq α] (a : α) (L : List α)
    (hn : L.Nodup) (h : a ∈ L) :
    (L.map (fun s => if a = s then (1 : ℕ) else 0)).sum = 1 := by
  induction L with
  | nil => simp at h
  | cons b L ih =>
    rw [List.map_cons, List.sum_cons]
    by_cases hab : a = b
    · subst hab
      rw [if_pos rfl, sum_map_ite_zero a L (List.nodup_cons.mp hn).1]
    · rw [if_neg hab]
      rcases List.mem_cons.mp h with h' | h'
      · exact absurd h' hab
      · rw [ih (List.nodup_cons.mp hn).2 h']

theorem sum_filter_length (su : List S) (hn : su.Nodup) :
    ∀ z : List (S × ρ), (∀ p ∈ z, p.1 ∈ su) →
      (su.map (fun s => (z.filter (fun p => p.1 = s)).length)).sum = z.length := by
  intro z
  induction z with
  | nil =>
    intro _
    simp
  | cons p z ih =>
    intro hz
    have hstep : ∀ s : S, ((p :: z).filter (fun q => q.1 = s)).length =
        (if p.1 = s then 1 else 0) + (z.filter (fun q => q.1 = s)).length := by
      intro s
      rw [List.filter_cons]
      by_cases h : p.1 = s
      · simp [h, Nat.add_comm]
      · simp [h]
    rw [List.map_eq_map_iff.mpr (fun s _ => hstep s), List.sum_map_add,
      ih (fun q hq => hz q (List.mem_cons_of_mem p hq)),
      sum_map_ite_one p.1 su hn (hz p (List.mem_cons_self p z))]
    simp [Nat.add_comm]

theorem sum_maskSelect_length (species : List S) (rows : List ρ)
    (hlen : species.length = rows.length) :
    ((sortedUnique species).map
      (fun s => (maskSelect species s rows).length)).sum = rows.length := by
  have h1 : ∀ s : S, (maskSelect species s rows).length =
      ((species.zip rows).filter (fun p => p.1 = s)).length := by
    intro s
    unfold maskSelect
    rw [List.length_map]
  rw [List.map_eq_map_iff.mpr (fun s _ => h1 s),
    sum_filter_length (sortedUnique species) (nodup_sortedUnique species)
      (species.zip rows)
      (fun p hp => (mem_sortedUnique species p.1).mpr (List.of_mem_zip hp).1),
    List.length_zip, hlen, Nat.min_self]

theorem splitter_lookup (features : List (K × List ρ)) (species : List S)
    (s : S) (hs : s ∈ sortedUnique species) :
    (centralSplitterForward features species).lookup s =
      some (features.map (fun kv => (kv.1, maskSelect species s kv.2))) := by
  unfold centralSplitterForward
  exact lookup_map_fn _ _ s hs

theorem splitter_entry_lookup (features : List (K × List ρ)) (species : List S)
    (s : S) (hkeys : (features.map Prod.fst).Nodup) (kv : K × List ρ)
    (hkv : kv ∈ features) :
    (features.map (fun kv => (kv.1, maskSelect species s kv.2))).lookup kv.1 =
      some (maskSelect species s kv.2) := by
  apply lookup_of_nodup
  · rw [List.map_map]
    have : (Prod.fst ∘ fun kv : K × List ρ => (kv.1, maskSelect species s kv.2)) =
        Prod.fst := by
      funext p
      rfl
    rw [this]
    exact hkeys
  · exact List.mem_map.mpr ⟨kv, hkv, rfl⟩

theorem uniter_total_key (features : List (K × List ρ)) (species : List S)
    (hkeys : (features.map Prod.fst).Nodup) (kv : K × List ρ)
    (hkv : kv ∈ features) (hlen : kv.2.length = species.length) :
    ((sortedUnique species).map (fun s =>
      (((((centralSplitterForward features species).lookup s).getD
        []).lookup kv.1).getD []).length)).sum = kv.2.length := by
  have h1 : ∀ s ∈ sortedUnique species,
      (((((centralSplitterForward features species).lookup s).getD
        []).lookup kv.1).getD []).length = (maskSelect species s kv.2).length := by
    intro s hs
    rw [splitter_lookup features species s hs, Option.getD_some,
      splitter_entry_lookup features species s hkeys kv hkv, Option.getD_some]
  rw [List.map_eq_map_iff.mpr h1, sum_maskSelect_length species kv.2 hlen.symm]

theorem foldl_congr_fun {α β : Type} (l : List α) (f g : β → α → β) (b : β)
    (h : ∀ a ∈ l, ∀ x : β, f x a = g x a) : l.foldl f b = l.foldl g b := by
  induction l generalizing b with
  | nil => rfl
  | cons a l ih =>
    rw [List.foldl_cons, List.foldl_cons, h a (List.mem_cons_self a l) b,
      ih _ (fun a ha x => h a (List.mem_cons_of_mem _ ha) x)]

theorem uniter_fold_key (features : List (K × List ρ)) (species : List S)
    (hkeys : (features.map Prod.fst).Nodup) (kv : K × List ρ)
    (hkv : kv ∈ features) (hlen : kv.2.length = species.length)
    (init : List ρ) (hinit : init.length = kv.2.length) :
    (centralSplitterForward features species).foldl
      (fun cur sd => maskedWrite species sd.1 ((sd.2.lookup kv.1).getD []) cur)
      init = kv.2 := by
  unfold centralSplitterForward
  rw [List.foldl_map]
  have hstep : ∀ s ∈ sortedUnique species, ∀ cur : List ρ,
      maskedWrite species s
        (((features.map (fun kv => (kv.1, maskSelect species s kv.2))).lookup
          kv.1).getD []) cur =
        maskedWrite species s (maskSelect species s kv.2) cur := by
    intro s hs cur
    rw [splitter_entry_lookup features species s hkeys kv hkv, Option.getD_some]
  rw [foldl_congr_fun _ _ _ init (fun s hs cur => hstep s hs cur)]
  apply List.ext_getElem?
  intro i
  by_cases hi : i < kv.2.length
  · have hisp : i < species.length := by omega
    have hlab : species[i]? = some (species.get ⟨i, hisp⟩) := by
      rw [List.getElem?_eq_getElem hisp]
      rfl
    rw [fold_maskedWrite_write species kv.2 hlen.symm (species.get ⟨i, hisp⟩) i
      hlab (sortedUnique species) init
      ((mem_sortedUnique species _).mpr (species.get_mem _ _))
      (by omega)]
  · rw [List.getElem?_eq_none (by omega : kv.2.length ≤ i),
      List.getElem?_eq_none]
    rw [fold_maskedWrite_length]
    omega

/-- **C7 (amended).** `CentralSplitter` followed by `CentralUniter` on a
non-empty feature dictionary (with distinct keys) and a *non-empty*
species-label array whose length equals the tensors' first dimension
reconstructs every original tensor exactly, for every initial content of
the `torch.empty` buffers.  (The claim as stated also allows the empty
label array, on which the code crashes; see the counterexample.) -/
theorem central_splitter_uniter_roundtrip (features : List (K × List ρ))
    (species : List S) (initF : K → ℕ → ρ) (hsp : species ≠ [])
    (hkeys : (features.map Prod.fst).Nodup)
    (hlen : ∀ kv ∈ features, kv.2.length = species.length) :
    centralUniterForward (centralSplitterForward features species) species
      initF = some features := by
  obtain ⟨x, hx⟩ := List.exists_mem_of_ne_nil species hsp
  have hxsu : x ∈ sortedUnique species := (mem_sortedUnique species x).mpr hx
  obtain ⟨s0, su', hsu⟩ : ∃ s0 su', sortedUnique species = s0 :: su' := by
    cases h : sortedUnique species with
    | nil =>
      rw [h] at hxsu
      simp at hxsu
    | cons a l => exact ⟨a, l, rfl⟩
  have hs0 : s0 ∈ sortedUnique species := by
    rw [hsu]
    exact List.mem_cons_self _ _
  have hhead : (sortedUnique species).head? = some s0 := by
    rw [hsu]
    rfl
  unfold centralUniterForward
  rw [hhead, Option.some_bind, splitter_lookup features species s0 hs0,
    Option.map_some']
  congr 1
  rw [List.map_map]
  conv_rhs => rw [← List.map_id features]
  apply List.map_eq_map_iff.mpr
  intro kv hkv
  dsimp only [Function.comp_apply, id_eq]
  rw [uniter_total_key features species hkeys kv hkv (hlen kv hkv),
    uniter_fold_key features species hkeys kv hkv (hlen kv hkv) _
      (by rw [List.length_map, List.length_range])]

/-- Witness for `central_splitter_uniter_roundtrip`: one feature key `7`
with two atom rows `[10, 20]`, species labels `[1, 0]` (unsorted on
purpose), `torch.empty` contents all `99`. -/
theorem central_splitter_uniter_roundtrip_witness :
    ([(1 : ℤ), 0] ≠ ([] : List ℤ)) ∧
    (([((7 : ℕ), [(10 : ℤ), 20])].map Prod.fst).Nodup) ∧
    (∀ kv ∈ [((7 : ℕ), [(10 : ℤ), 20])], kv.2.length = [(1 : ℤ), 0].length) ∧
    centralUniterForward
      (centralSplitterForward [((7 : ℕ), [(10 : ℤ), 20])] [(1 : ℤ), 0])
      [(1 : ℤ), 0] (fun _ _ => (99 : ℤ)) = some [((7 : ℕ), [(10 : ℤ), 20])] :=
  ⟨by decide, by decide, by decide,
   central_splitter_uniter_roundtrip [((7 : ℕ), [(10 : ℤ), 20])] [(1 : ℤ), 0]
     (fun _ _ => (99 : ℤ)) (by decide) (by decide) (by decide)⟩

/-- **C7, counterexample.** The claim as stated quantifies over *every*
label array whose length matches the tensors' first dimension, including
the empty one (zero atom rows).  There `CentralUniter.forward` crashes at
`all_species[0]` (`IndexError` on `np.unique([])`), so the round trip does
not reconstruct the input. -/
theorem central_uniter_empty_species_fails :
    centralUniterForward
      (centralSplitterForward [((0 : ℕ), ([] : List ℤ))] ([] : List ℤ))
      ([] : List ℤ) (fun _ _ => (0 : ℤ)) ≠
      some [((0 : ℕ), ([] : List ℤ))] := by
  simp [centralUniterForward, sortedUnique]

end SpeciesRouting

section Accumulation

variable {R : Type} [LinearOrderedField R] {K : Type} [DecidableEq K]

/-- Elementwise addition of two tensor rows (`+=` of `index_add_`). -/
def rowAdd (a b : List R) : List R := List.zipWith (fun x y => x + y) a b

/-- `acc.index_add_(0, idx, rows)`: add each row at its index, in order. -/
def indexAdd (acc : List (List R)) (pairs : List (ℕ × List R)) : List (List R) :=
  pairs.foldl (fun acc p => acc.set p.1 (rowAdd (acc.getD p.1 []) p.2)) acc

/-- `Accumulator.forward` for one feature tensor:
`n_structures = torch.max(structural_indices) + 1` (an error on an empty
index tensor; the claims supply non-empty ones), a zero tensor with the
first dimension replaced by `n_structures`, then
`index_add_(0, structural_indices, features[key])`.  Rows model the
flattened trailing axes; their uniform width is read off the first row as
the zero tensor's trailing shape is read off `value.shape`. -/
def accumulatorForward (sidx : List ℕ) (rows : List (List R)) : List (List R) :=
  indexAdd
    (List.replicate (sidx.foldl max 0 + 1)
      (List.replicate (rows.headD []).length (0 : R)))
    (sidx.zip rows)

/-- `Accumulator.forward` over the whole feature dictionary. -/
def accumulatorForwardDict (features : List (K × List (List R)))
    (sidx : List ℕ) : List (K × List (List R)) :=
  features.map (fun kv => (kv.1, accumulatorForward sidx kv.2))

/-- Total of all entries of a stack of rows. -/
def totalSum (l : List (List R)) : R := (l.map List.sum).sum

theorem rowAdd_sum (a : List R) :
    ∀ b : List R, a.length = b.length → (rowAdd a b).sum = a.sum + b.sum := by
  induction a with
  | nil =>
    intro b hb
    rw [List.length_nil] at hb
    rw [(List.length_eq_zero.mp hb.symm)]
    simp [rowAdd]
  | cons x a ih =>
    intro b hb
    cases b with
    | nil => simp at hb
    | cons y b =>
      show ((x + y) :: rowAdd a b).sum = _
      rw [List.sum_cons, List.sum_cons, List.sum_cons, ih b (by simpa using hb)]
      ring

theorem indexAdd_length (pairs : List (ℕ × List R)) :
    ∀ acc : List (List R), (indexAdd acc pairs).length = acc.length := by
  induction pairs with
  | nil => intro acc; rfl
  | cons p ps ih =>
    intro acc
    unfold indexAdd
    rw [List.foldl_cons]
    show (indexAdd _ ps).length = _
    rw [ih, List.length_set]

theorem indexAdd_width (w : ℕ) (pairs : List (ℕ × List R)) :
    ∀ acc : List (List R), (∀ r ∈ acc, r.length = w) →
      (∀ p ∈ pairs, (p.2 : List R).length = w) →
      ∀ r ∈ indexAdd acc pairs, r.length = w := by
  induction pairs with
  | nil =>
    intro acc hacc _
    exact hacc
  | cons p ps ih =>
    intro acc hacc hp
    unfold indexAdd
    rw [List.foldl_cons]
    show ∀ r ∈ indexAdd _ ps, r.length = w
    apply ih
    · intro r hr
      by_cases hlt : p.1 < acc.length
      · rcases List.mem_or_eq_of_mem_set hr with h | h
        · exact hacc r h
        · subst h
          unfold rowAdd
          rw [List.length_zipWith, List.getD_eq_getElem _ _ hlt,
            hacc _ (List.getElem_mem hlt), hp p (List.mem_cons_self p ps)]
          exact Nat.min_self w
      · rw [List.set_eq_of_length_le (by omega)] at hr
        exact hacc r hr
    · intro q hq
      exact hp q (List.mem_cons_of_mem p hq)

theorem totalSum_set_add (i : ℕ) :
    ∀ (acc : List (List R)) (row : List R), i < acc.length →
      (acc.getD i []).length = row.length →
      totalSum (acc.set i (rowAdd (acc.getD i []) row)) =
        totalSum acc + row.sum := by
  induction i with
  | zero =>
    intro acc row hi hw
    cases acc with
    | nil => simp at hi
    | cons a t =>
      show totalSum (rowAdd a row :: t) = _
      unfold totalSum
      rw [List.map_cons, List.sum_cons, List.map_cons, List.sum_cons,
        rowAdd_sum a row (by simpa using hw)]
      ring
  | succ j ih =>
    intro acc row hi hw
    cases acc with
    | nil => simp at hi
    | cons a t =>
      show totalSum (a :: t.set j (rowAdd (t.getD j []) row)) = _
      unfold totalSum
      rw [List.map_cons, List.sum_cons, List.map_cons, List.sum_cons]
      have := ih t row (by simpa using hi) (by simpa using hw)
      unfold totalSum at this
      rw [this]
      ring

theorem indexAdd_totalSum (w : ℕ) (pairs : List (ℕ × List R)) :
    ∀ acc : List (List R), (∀ r ∈ acc, r.length = w) →
      (∀ p ∈ pairs, (p.2 : List R).length = w) →
      (∀ p ∈ pairs, p.1 < acc.length) →
      totalSum (indexAdd acc pairs) =
        totalSum acc + (pairs.map (fun p => p.2.sum)).sum := by
  induction pairs with
  | nil =>
    intro acc _ _ _
    show totalSum acc = totalSum acc + ([] : List R).sum
    simp
  | cons p ps ih =>
    intro acc hacc hp hidx
    unfold indexAdd
    rw [List.foldl_cons]
    show totalSum (indexAdd _ ps) = _
    have hplt : p.1 < acc.length := hidx p (List.mem_cons_self p ps)
    have hgw : (acc.getD p.1 []).length = (p.2 : List R).length := by
      rw [List.getD_eq_getElem _ _ hplt, hacc _ (List.getElem_mem hplt),
        hp p (List.mem_cons_self p ps)]
    rw [ih _
      (fun r hr => by
        rcases List.mem_or_eq_of_mem_set hr with h | h
        · exact hacc r h
        · subst h
          unfold rowAdd
          rw [List.length_zipWith, hgw, hp p (List.mem_cons_self p ps)]
          exact Nat.min_self w)
      (fun q hq => hp q (List.mem_cons_of_mem p hq))
      (fun q hq => by
        rw [List.length_set]
        exact hidx q (List.mem_cons_of_mem p hq)),
      totalSum_set_add p.1 acc p.2 hplt hgw, List.map_cons, List.sum_cons]
    ring

theorem indexAdd_getElem (s : ℕ) (pairs : List (ℕ × List R)) :
    ∀ acc : List (List R), s < acc.length →
      (indexAdd acc pairs)[s]? =
        some (((pairs.filter (fun p => p.1 = s)).map Prod.snd).foldl rowAdd
          (acc.getD s [])) := by
  induction pairs with
  | nil =>
    intro acc hs
    show acc[s]? = _
    rw [List.getD_eq_getElem _ _ hs, List.getElem?_eq_getElem hs]
    rfl
  | cons p ps ih =>
    intro acc hs
    unfold indexAdd
    rw [List.foldl_cons]
    show (indexAdd _ ps)[s]? = _
    rw [ih _ (by rw [List.length_set]; exact hs), List.filter_cons]
    by_cases hps : p.1 = s
    · subst hps
      have hgd : ((acc.set p.1 (rowAdd (acc.getD p.1 []) p.2)).getD p.1 []) =
          rowAdd (acc.getD p.1 []) p.2 := by
        rw [List.getD_eq_getElem?_getD _ p.1, List.getElem?_set_eq_of_lt _ hs]
        rfl
      rw [hgd]
      simp
    · have hgd : ((acc.set p.1 (rowAdd (acc.getD p.1 []) p.2)).getD s []) =
          acc.getD s [] := by
        rw [List.getD_eq_getElem?_getD _ s, List.getElem?_set_ne hps,
          ← List.getD_eq_getElem?_getD]
      rw [hgd]
      simp [hps]

theorem foldl_max_init_le (l : List ℕ) : ∀ b : ℕ, b ≤ l.foldl max b := by
  induction l with
  | nil => intro b; exact le_refl b
  | cons a l ih =>
    intro b
    rw [List.foldl_cons]
    exact le_trans (Nat.le_max_left b a) (ih (max b a))

theorem mem_le_foldl_max (l : List ℕ) : ∀ (b a : ℕ), a ∈ l → a ≤ l.foldl max b := by
  induction l with
  | nil =>
    intro b a h
    simp at h
  | cons c l ih =>
    intro b a h
    rw [List.foldl_cons]
    rcases List.mem_cons.mp h with h' | h'
    · subst h'
      exact le_trans (Nat.le_max_right b a) (foldl_max_init_le l _)
    · exact ih (max b c) a h'

/-- **C8.** For every non-empty feature dictionary, every non-empty
structural-index array whose length equals the tensors' first dimension,
and every feature key: `Accumulator.forward` returns a tensor whose first
dimension equals `1 + max(structural_indices)`; the sum of all entries of
the output equals the sum of all entries of the input; and each output
row `s` is the elementwise sum of the input rows `r` with
`structural_indices[r] = s` (accumulated onto the zero row).
`accumulatorForwardDict` maps `accumulatorForward` over every key. -/
theorem accumulator_spec (features : List (K × List (List R))) (sidx : List ℕ)
    (hne : sidx ≠ []) (kv : K × List (List R)) (hkv : kv ∈ features)
    (hlen : kv.2.length = sidx.length) (w : ℕ)
    (hw : ∀ r ∈ kv.2, r.length = w) :
    (kv.1, accumulatorForward sidx kv.2) ∈ accumulatorForwardDict features sidx ∧
    (accumulatorForward sidx kv.2).length = sidx.foldl max 0 + 1 ∧
    totalSum (accumulatorForward sidx kv.2) = totalSum kv.2 ∧
    ∀ s : ℕ, s < sidx.foldl max 0 + 1 →
      (accumulatorForward sidx kv.2)[s]? =
        some ((((sidx.zip kv.2).filter (fun p => p.1 = s)).map Prod.snd).foldl
          rowAdd (List.replicate (kv.2.headD []).length (0 : R))) := by
  have hrows : kv.2 ≠ [] := by
    intro h
    rw [h] at hlen
    exact hne (List.length_eq_zero.mp hlen.symm)
  have hhead : (kv.2.headD []).length = w := by
    cases hkv2 : kv.2 with
    | nil => exact absurd hkv2 hrows
    | cons r rs =>
      show r.length = w
      exact hw r (by rw [hkv2]; exact List.mem_cons_self r rs)
  have hzero : ∀ r ∈ List.replicate (sidx.foldl max 0 + 1)
      (List.replicate (kv.2.headD []).length (0 : R)), r.length = w := by
    intro r hr
    rw [List.eq_of_mem_replicate hr, List.length_replicate]
    exact hhead
  have hpairw : ∀ p ∈ sidx.zip kv.2, (p.2 : List R).length = w :=
    fun p hp => hw p.2 (List.of_mem_zip hp).2
  have hpairi : ∀ p ∈ sidx.zip kv.2, p.1 <
      (List.replicate (sidx.foldl max 0 + 1)
        (List.replicate (kv.2.headD []).length (0 : R))).length := by
    intro p hp
    rw [List.length_replicate]
    have := mem_le_foldl_max sidx 0 p.1 (List.of_mem_zip hp).1
    omega
  refine ⟨List.mem_map.mpr ⟨kv, hkv, rfl⟩, ?_, ?_, ?_⟩
  · unfold accumulatorForward
    rw [indexAdd_length, List.length_replicate]
  · unfold accumulatorForward
    rw [indexAdd_totalSum w _ _ hzero hpairw hpairi]
    have h0 : totalSum (List.replicate (sidx.foldl max 0 + 1)
        (List.replicate (kv.2.headD []).length (0 : R))) = 0 := by
      unfold totalSum
      simp
    rw [h0, zero_add]
    have h1 : (sidx.zip kv.2).map (fun p => (p.2 : List R).sum) =
        kv.2.map List.sum := by
      have h2 : (sidx.zip kv.2).map (fun p => (p.2 : List R).sum) =
          ((sidx.zip kv.2).map Prod.snd).map List.sum := by
        rw [List.map_map]
        rfl
      rw [h2, List.map_snd_zip sidx kv.2 (by omega)]
    rw [h1]
    rfl
  · intro s hs
    unfold accumulatorForward
    rw [indexAdd_getElem s _ _ (by rw [List.length_replicate]; exact hs)]
    have hgd : ((List.replicate (sidx.foldl max 0 + 1)
        (List.replicate (kv.2.headD []).length (0 : R))).getD s []) =
        List.replicate (kv.2.headD []).length (0 : R) := by
      rw [List.getD_eq_getElem _ _ (by rw [List.length_replicate]; exact hs)]
      exact List.getElem_replicate _ _
    rw [hgd]

/-- Witness for `accumulator_spec`: one key `0` with rows
`[[1,2],[3,4],[5,6]]` and indices `[1,0,1]` over `ℚ`. -/
theorem accumulator_spec_witness :
    ([(1 : ℕ), 0, 1] ≠ []) ∧
    ([[(1 : ℚ), 2], [3, 4], [5, 6]].length = [(1 : ℕ), 0, 1].length) ∧
    ((accumulatorForward [(1 : ℕ), 0, 1]
        [[(1 : ℚ), 2], [3, 4], [5, 6]]).length = [(1 : ℕ), 0, 1].foldl max 0 + 1 ∧
      totalSum (accumulatorForward [(1 : ℕ), 0, 1]
        [[(1 : ℚ), 2], [3, 4], [5, 6]]) =
        totalSum [[(1 : ℚ), 2], [3, 4], [5, 6]]) := by
  have h := accumulator_spec [((0 : ℕ), [[(1 : ℚ), 2], [3, 4], [5, 6]])]
    [(1 : ℕ), 0, 1] (by decide)
    ((0 : ℕ), [[(1 : ℚ), 2], [3, 4], [5, 6]])
    (List.mem_singleton.mpr rfl) (by decide) 2 (by decide)
  exact ⟨by decide, by decide, h.2.1, h.2.2.1⟩

/-- `get_forces(structural_indices, target_X_der, X_pos_der,
central_indices, derivative_indices, device)` from the source.  Per-key
tensors are modelled with flattened trailing feature axes: `target k r` is
the gradient row of key `k` at row `r` (`target_X_der`), and `xpos k r d`
the position-derivative feature row at atom row `r`, spatial direction
`d < 3` (`X_pos_der`).  The function aligns gradients through
`central_indices` (`torch.index_select`), contracts with the position
derivatives (negated sum over all trailing axes, broadcast over the 3
directions), allocates `torch.zeros([structural_indices.shape[0], 3])`,
and `index_add_`s every key's contribution rows at `derivative_indices`. -/
def get_forces (keys : List K) (target : K → ℕ → List R)
    (xpos : K → ℕ → ℕ → List R) (sidx : List ℕ)
    (central derivIdx : List ℕ) : List (List R) :=
  keys.foldl (fun acc k =>
    indexAdd acc ((List.range derivIdx.length).map (fun r =>
      (derivIdx.getD r 0,
       (List.range 3).map (fun d =>
         -(List.zipWith (fun a b => a * b) (target k (central.getD r 0))
           (xpos k r d)).sum)))))
    (List.replicate sidx.length (List.replicate 3 (0 : R)))

theorem foldl_indexAdd_length {α : Type} (keys : List α)
    (P : α → List (ℕ × List R)) :
    ∀ acc : List (List R),
      (keys.foldl (fun acc k => indexAdd acc (P k)) acc).length = acc.length := by
  induction keys with
  | nil => intro acc; rfl
  | cons k keys ih =>
    intro acc
    rw [List.foldl_cons, ih, indexAdd_length]

theorem foldl_indexAdd_width {α : Type} (w : ℕ) (keys : List α)
    (P : α → List (ℕ × List R)) (hP : ∀ k, ∀ p ∈ P k, (p.2 : List R).length = w) :
    ∀ acc : List (List R), (∀ r ∈ acc, r.length = w) →
      ∀ r ∈ keys.foldl (fun acc k => indexAdd acc (P k)) acc, r.length = w := by
  induction keys with
  | nil =>
    intro acc hacc
    exact hacc
  | cons k keys ih =>
    intro acc hacc
    rw [List.foldl_cons]
    exact ih _ (indexAdd_width w (P k) acc hacc (hP k))

/-- **C4 (amended).** `get_forces` returns a force tensor whose first
dimension equals the *length of the structural-index array* (the number of
per-atom rows, `structural_indices.shape[0]`) — not the number of
structures `1 + max(structural_index)` as the claim states — with rows of
width 3; and for a single feature key each output row `s` is the scatter
add, at the rows given by `derivative_indices`, of the negated
gathered-and-contracted contributions. -/
theorem get_forces_spec (keys : List K) (target : K → ℕ → List R)
    (xpos : K → ℕ → ℕ → List R) (sidx : List ℕ) (central derivIdx : List ℕ) :
    (get_forces keys target xpos sidx central derivIdx).length = sidx.length ∧
    (∀ r ∈ get_forces keys target xpos sidx central derivIdx, r.length = 3) ∧
    (∀ (k : K) (s : ℕ), s < sidx.length →
      (get_forces [k] target xpos sidx central derivIdx)[s]? =
        some (((((List.range derivIdx.length).map (fun r =>
          (derivIdx.getD r 0,
           (List.range 3).map (fun d =>
             -(List.zipWith (fun a b => a * b) (target k (central.getD r 0))
               (xpos k r d)).sum)))).filter (fun p => p.1 = s)).map
          Prod.snd).foldl rowAdd (List.replicate 3 (0 : R)))) := by
  refine ⟨?_, ?_, ?_⟩
  · unfold get_forces
    rw [foldl_indexAdd_length, List.length_replicate]
  · unfold get_forces
    apply foldl_indexAdd_width 3
    · intro k p hp
      rw [List.mem_map] at hp
      obtain ⟨r, _, rfl⟩ := hp
      rw [List.length_map, List.length_range]
    · intro r hr
      rw [List.eq_of_mem_replicate hr, List.length_replicate]
  · intro k s hs
    unfold get_forces
    rw [List.foldl_cons, List.foldl_nil,
      indexAdd_getElem s _ _ (by rw [List.length_replicate]; exact hs)]
    have hgd : ((List.replicate sidx.length (List.replicate 3 (0 : R))).getD
        s []) = List.replicate 3 (0 : R) := by
      rw [List.getD_eq_getElem _ _ (by rw [List.length_replicate]; exact hs)]
      exact List.getElem_replicate _ _
    rw [hgd]

/-- Witness for `get_forces_spec` at a concrete input: one key, two atom
rows mapped to one structure. -/
theorem get_forces_spec_witness :
    (get_forces [(7 : ℕ)] (fun _ _ => [(1 : ℚ)]) (fun _ _ _ => [1]) [0, 0]
      [0] [0]).length = [0, 0].length :=
  (get_forces_spec [(7 : ℕ)] (fun _ _ => [(1 : ℚ)]) (fun _ _ _ => [1]) [0, 0]
    [0] [0]).1

/-- **C4, counterexample.** With `structural_indices = [0, 0]` (two atom
rows, one structure) the allocated force tensor has first dimension 2 =
`structural_indices.shape[0]`, while the number of structures
`1 + max(structural_index)` is 1: the claimed shape `[num_structures, 3]`
is wrong. -/
theorem get_forces_rows_ne_num_structures :
    (get_forces ([] : List ℕ) (fun _ _ => ([] : List ℚ)) (fun _ _ _ => [])
      [0, 0] [] []).length = 2 ∧
    [0, 0].foldl max 0 + 1 = 1 ∧ (2 : ℕ) ≠ 1 := by
  refine ⟨?_, by decide, by decide⟩
  unfold get_forces
  rw [List.foldl_nil, List.length_replicate]
  rfl

end Accumulation

section ForceEvaluation

variable {R : Type} [LinearOrderedField R] {K : Type} [DecidableEq K]

/-- An input feature tensor together with its autograd flag, as consumed by
`Atomistic.get_forces`. -/
structure GradTensor (R : Type) where
  data : ℕ → List R
  requires_grad : Bool

/-- `Atomistic.get_forces`: the source first reads `list(X.keys())[0]` (an
`IndexError` on an empty dictionary), then walks every input tensor and
raises `ValueError("input should require grad for calculation of forces")`
if any has `requires_grad` disabled, and only afterwards runs
`self.forward`, `grad_dict` (i.e. `torch.autograd.grad`) and the free
function `get_forces`.  The forward pass, the gradient computation and the
force projection are abstracted as the opaque total functions `forwardFn`,
`gradFn` and `forcesFn`; quantifying over them expresses that the
precondition error is raised before any of that work begins. -/
def atomisticGetForces {β γ δ : Type} (forwardFn : List (K × GradTensor R) → β)
    (gradFn : β → γ) (forcesFn : γ → δ) (X : List (K × GradTensor R)) :
    Except String δ :=
  match X with
  | [] => Except.error "IndexError: list index out of range"
  | _ :: _ =>
    if X.all (fun kv => kv.2.requires_grad) then
      Except.ok (forcesFn (gradFn (forwardFn X)))
    else
      Except.error "input should require grad for calculation of forces"

/-- **C9.** If any input tensor has gradient tracking disabled,
`Atomistic.get_forces` raises the `ValueError` before the forward pass and
before any gradient computation: the result is the error for *every*
choice of the forward/gradient/force functions, so none of them is ever
consulted. -/
theorem atomistic_get_forces_checks_grad_first {β γ δ : Type}
    (forwardFn : List (K × GradTensor R) → β) (gradFn : β → γ)
    (forcesFn : γ → δ) (X : List (K × GradTensor R)) (k : K)
    (t : GradTensor R) (hmem : (k, t) ∈ X) (hng : t.requires_grad = false) :
    atomisticGetForces forwardFn gradFn forcesFn X =
      Except.error "input should require grad for calculation of forces" := by
  have hall : X.all (fun kv => kv.2.requires_grad) = false := by
    rw [List.all_eq_false]
    exact ⟨(k, t), hmem, by rw [hng]; exact Bool.false_ne_true⟩
  cases X with
  | nil => simp at hmem
  | cons p X' =>
    show (if (p :: X').all (fun kv => kv.2.requires_grad) then _ else _) = _
    rw [hall]
    rfl

/-- Witness for `atomistic_get_forces_checks_grad_first`: a one-key input
whose tensor has `requires_grad = False`, with arbitrary concrete
forward/gradient/force functions over `ℚ`. -/
theorem atomistic_get_forces_checks_grad_first_witness :
    ((0 : ℕ), (⟨fun _ => [], false⟩ : GradTensor ℚ)) ∈
      [((0 : ℕ), (⟨fun _ => [], false⟩ : GradTensor ℚ))] ∧
    (⟨fun _ => [], false⟩ : GradTensor ℚ).requires_grad = false ∧
    atomisticGetForces (fun _ => (0 : ℕ)) (fun n => n) (fun n => n)
      [((0 : ℕ), (⟨fun _ => [], false⟩ : GradTensor ℚ))] =
      Except.error "input should require grad for calculation of forces" :=
  ⟨List.mem_singleton.mpr rfl, rfl,
   atomistic_get_forces_checks_grad_first (fun _ => (0 : ℕ)) (fun n => n)
     (fun n => n) [((0 : ℕ), ⟨fun _ => [], false⟩)] 0 ⟨fun _ => [], false⟩
     (List.mem_singleton.mpr rfl) rfl⟩

end ForceEvaluation
